import Mathlib

/-!
# Verification of `skeleton_discovery` (causal-learn, PC algorithm skeleton phase)

Shallow embedding of `causallearn/utils/PCUtils/SkeletonDiscovery.py`.

The driver logic (depth loop, neighbor snapshots, conditioning-set
enumeration, stable vs. non-stable removal, background-knowledge shortcut,
data preparation) is translated directly from the Python source.  The
graph primitives (`CausalGraph.neighbors`, `max_degree`, edge removal) and
the separation-set store helper (`append_value`) live outside the provided
source tree; they are modelled from the specification, as indicated on
each definition.
-/

namespace SkeletonDiscovery

/-- `itertools.combinations l d`: all size-`d` sublists of `l`, in the
lexicographic order itertools produces (elements keep their order in `l`). -/
def combinations : List Nat → Nat → List (List Nat)
  | _, 0 => [[]]
  | [], _ + 1 => []
  | a :: as, n + 1 => (combinations as n).map (fun S => a :: S) ++ combinations as (n + 1)

/-- Parameters of one `skeleton_discovery` run: number of variables
(`data.shape[1]`), significance level `alpha`, the independence oracle
(`cg.ci_test`, a pure function returning a p-value as the spec requires),
the optional background-knowledge oracle (`is_forbidden`), and the
`stable` flag. -/
structure SDParams where
  m : Nat
  alpha : ℚ
  ci : Nat → Nat → List Nat → ℚ
  bk : Option (Nat → Nat → Bool)
  stable : Bool

/-- One record of a processed ordered pair `(x, y)`: the depth, the
adjacency snapshot `adjX` from which `Neigh_x` was computed (taken when
`x`'s iteration began), the live adjacency `adjP` when the pair itself was
processed, and the candidate pool `cands = Neigh_x \ \x7by\x7d` from which
conditioning sets are enumerated.  This instruments the run with the
observations each test makes; the Python code does not store it. -/
structure TraceEntry where
  d : Nat
  x : Nat
  y : Nat
  adjX : Finset (Nat × Nat)
  adjP : Finset (Nat × Nat)
  cands : List Nat
  deriving DecidableEq

/-- Mutable state of a run: the adjacency graph (as a set of ordered
pairs, kept symmetric: Modelled from the spec: the `CausalGraph` adjacency
structure is an undirected graph over indices `0..m-1`), the separation
set store (Modelled from the spec: `Helper.append_value` records, per
ordered pair, the union of conditioning sets found to separate it — set
semantics), the pending removal list `edge_removal` of stable mode, and
the instrumentation trace. -/
structure SDState where
  adj : Finset (Nat × Nat)
  sepset : Finset (Nat × Nat × List Nat)
  pending : List (Nat × Nat)
  trace : List TraceEntry
  deriving DecidableEq

/-- Modelled from the spec: `cg.neighbors(x)` — the neighbors of `x` in
the live adjacency graph, in ascending index order (numpy `where` order). -/
def neighborList (m : Nat) (adj : Finset (Nat × Nat)) (x : Nat) : List Nat :=
  (List.range m).filter (fun y => decide ((x, y) ∈ adj))

/-- Modelled from the spec: `cg.max_degree()` — the maximum current degree
over all vertices. -/
def maxDegree (m : Nat) (adj : Finset (Nat × Nat)) : Nat :=
  ((List.range m).map (fun x => (neighborList m adj x).length)).foldr max 0

/-- The complete undirected graph over `m` vertices, the initial adjacency
graph (`CausalGraph(no_of_var)`). -/
def completeAdj (m : Nat) : Finset (Nat × Nat) :=
  (Finset.range m ×ˢ Finset.range m).filter (fun p => p.1 ≠ p.2)

/-- `background_knowledge.is_forbidden` in both directions (the guard of
the background-knowledge branch). -/
def bkBothForbidden (P : SDParams) (x y : Nat) : Bool :=
  match P.bk with
  | none => false
  | some f => f x y && f y x

/-- Whether conditioning set `S` counts as separating `(x, y)`: either the
background-knowledge shortcut fires, or the test's p-value exceeds
`alpha`. -/
def sepFound (P : SDParams) (x y : Nat) (S : List Nat) : Bool :=
  bkBothForbidden P x y || decide (P.alpha < P.ci x y S)

/-- The inner `for S in combinations(...)` loop for one pair `(x, y)`:
the first `S` (in enumeration order) that separates, if any; the `break`
stops the enumeration there. -/
def sepDecision (P : SDParams) (d x y : Nat) (cands : List Nat) : Option (List Nat) :=
  (combinations cands d).find? (sepFound P x y)

/-- Modelled from the spec: removing an undirected edge removes it under
both orderings (`cg.G.remove_edge` on the edge found by `get_edge` in
either direction). -/
def eraseEdge (adj : Finset (Nat × Nat)) (p : Nat × Nat) : Finset (Nat × Nat) :=
  (adj.erase (p.1, p.2)).erase (p.2, p.1)

/-- The `for (x, y) in list(set(edge_removal))` loop at the end of a
stable-mode depth pass: remove every listed edge. -/
def removeEdges (adj : Finset (Nat × Nat)) (l : List (Nat × Nat)) : Finset (Nat × Nat) :=
  l.foldl eraseEdge adj

/-- Effect of a decided pair on the state: nothing if no separation was
found; in stable mode append `(x,y)` and `(y,x)` to `edge_removal` and
record `S` in the separation set store under both orderings; in
non-stable mode remove the edge immediately. -/
def pairEffect (P : SDParams) (x y : Nat) (dec : Option (List Nat)) (st : SDState) : SDState :=
  match dec with
  | none => st
  | some S =>
    if P.stable then
      { st with pending := st.pending ++ [(x, y), (y, x)],
                sepset := insert (x, y, S) (insert (y, x, S) st.sepset) }
    else
      { st with adj := eraseEdge st.adj (x, y) }

/-- Process one `y` from the snapshot `Neigh_x`: build the candidate pool
`Neigh_x_noy` (`np.delete` of all occurrences of `y`), record the trace
entry, decide, and apply the effect. -/
def processPair (P : SDParams) (d x : Nat) (NeighX : List Nat) (adjX : Finset (Nat × Nat))
    (st : SDState) (y : Nat) : SDState :=
  pairEffect P x y (sepDecision P d x y (NeighX.filter (fun z => decide (z ≠ y))))
    { st with trace := st.trace ++ [⟨d, x, y, adjX, st.adj, NeighX.filter (fun z => decide (z ≠ y))⟩] }

/-- Process one vertex `x` at depth `d`: take the snapshot
`Neigh_x = cg.neighbors(x)` from the live graph, apply the fast-path skip
`len(Neigh_x) < depth - 1` (in integers; `len + 1 < d` over ℕ), then fold
over the snapshot's `y`s. -/
def processX (P : SDParams) (d : Nat) (st : SDState) (x : Nat) : SDState :=
  if (neighborList P.m st.adj x).length + 1 < d then st
  else (neighborList P.m st.adj x).foldl
    (processPair P d x (neighborList P.m st.adj x) st.adj) st

/-- The body of one depth pass before the end-of-depth removal: reset
`edge_removal` to `[]` and fold `processX` over `x = 0, …, m-1`. -/
def passCore (P : SDParams) (d : Nat) (st : SDState) : SDState :=
  (List.range P.m).foldl (processX P d) { st with pending := [] }

/-- The end-of-depth removal `for (x, y) in list(set(edge_removal)):
remove the edge` (`list(set(...))` deduplicates), after which
`edge_removal` is dead. -/
def finalizePass (st : SDState) : SDState :=
  { st with adj := removeEdges st.adj st.pending.dedup, pending := [] }

/-- One full iteration of the `while` body at depth `d`: the pass over all
vertices followed by `for (x, y) in list(set(edge_removal)): remove`. -/
def depthPass (P : SDParams) (d : Nat) (st : SDState) : SDState :=
  finalizePass (passCore P d st)

/-- The driver loop.  `nd` is `depth + 1` of the Python code (so the
initial `depth = -1` is `nd = 0`); the guard `cg.max_degree() - 1 > depth`
becomes `nd < maxDegree`, and the body runs the pass at the incremented
depth `nd`.  `fuel` bounds the recursion; `m` units always suffice
(proved below). -/
def sdLoop (P : SDParams) : Nat → SDState → Nat → SDState × Nat
  | 0, st, nd => (st, nd)
  | fuel + 1, st, nd =>
    if nd < maxDegree P.m st.adj then sdLoop P fuel (depthPass P nd st) (nd + 1)
    else (st, nd)

/-- The state `skeleton_discovery` starts from: the complete graph, an
empty separation set store, no pending removals. -/
def initState (P : SDParams) : SDState :=
  { adj := completeAdj P.m, sepset := ∅, pending := [], trace := [] }

/-- The whole run of `skeleton_discovery` after the input checks and data
preparation: the final state (adjacency graph and separation set store). -/
def skeleton_discovery (P : SDParams) : SDState :=
  (sdLoop P P.m (initState P) 0).1

/-! ### The depth pass as a fold over the visited ordered pairs

In stable mode the adjacency graph is frozen for the whole pass, so each
visited pair's treatment depends only on the graph at the start of the
depth.  This lets the pass be rewritten as a fold over the list of visited
pairs, which is the handle for the order-invariance and round-trip
properties. -/

/-- The candidate pool `Neigh_x_noy` of pair `p`, computed from a fixed
adjacency `adj0`. -/
def candsOf (P : SDParams) (adj0 : Finset (Nat × Nat)) (p : Nat × Nat) : List Nat :=
  (neighborList P.m adj0 p.1).filter (fun z => decide (z ≠ p.2))

/-- The decision taken for pair `p` against the frozen adjacency `adj0`. -/
def decP (P : SDParams) (d : Nat) (adj0 : Finset (Nat × Nat)) (p : Nat × Nat) :
    Option (List Nat) :=
  sepDecision P d p.1 p.2 (candsOf P adj0 p)

/-- Processing of one visited ordered pair, with snapshots taken from the
frozen adjacency `adj0`. -/
def stablePairStep (P : SDParams) (d : Nat) (adj0 : Finset (Nat × Nat)) (st : SDState)
    (p : Nat × Nat) : SDState :=
  processPair P d p.1 (neighborList P.m adj0 p.1) adj0 st p.2

/-- Fold pair processing over an arbitrary visitation order `L`. -/
def runPairs (P : SDParams) (d : Nat) (adj0 : Finset (Nat × Nat)) (L : List (Nat × Nat))
    (st : SDState) : SDState :=
  L.foldl (stablePairStep P d adj0) st

/-- The visitation order the source code uses: `x` ascending (skipping `x`
with too few neighbors), then `y` ascending within `Neigh_x`. -/
def canonicalPairs (P : SDParams) (d : Nat) (adj0 : Finset (Nat × Nat)) : List (Nat × Nat) :=
  (List.range P.m).flatMap (fun x =>
    if (neighborList P.m adj0 x).length + 1 < d then []
    else (neighborList P.m adj0 x).map (fun y => (x, y)))

/-- A depth pass that visits the pairs in the order given by `L`. -/
def depthPassOrd (P : SDParams) (d : Nat) (L : List (Nat × Nat)) (st : SDState) : SDState :=
  finalizePass (runPairs P d st.adj L { st with pending := [] })

/-- The driver loop with a caller-chosen visitation order at every depth. -/
def sdLoopOrd (P : SDParams) (pi : Nat → Finset (Nat × Nat) → List (Nat × Nat)) :
    Nat → SDState → Nat → SDState × Nat
  | 0, st, nd => (st, nd)
  | fuel + 1, st, nd =>
    if nd < maxDegree P.m st.adj then
      sdLoopOrd P pi fuel (depthPassOrd P nd (pi nd st.adj) st) (nd + 1)
    else (st, nd)

/-- A whole run of skeleton discovery with visitation order `pi`. -/
def skeleton_discovery_ord (P : SDParams)
    (pi : Nat → Finset (Nat × Nat) → List (Nat × Nat)) : SDState :=
  (sdLoopOrd P pi P.m (initState P) 0).1

/-! ### Data preparation and the checked entry point -/

/-- The independence-test selector (`indep_test` is compared against the
`chisq` and `gsq` constants of `causallearn.utils.cit`). -/
inductive TestKind where
  | fisherz : TestKind
  | chisq : TestKind
  | gsq : TestKind
  deriving DecidableEq

/-- `indep_test == chisq or indep_test == gsq`. -/
def requiresDiscrete : TestKind → Bool
  | .chisq => true
  | .gsq => true
  | .fisherz => false

/-- The distinct values of a column in ascending order — the first
component of `np.unique(column, return_inverse=True)`. -/
def sortedUniques {α : Type} [LinearOrder α] (col : List α) : List α :=
  List.insertionSort (fun a b => a ≤ b) col.dedup

/-- `np.unique(column, return_inverse=True)[1]`: each value replaced by
its index among the sorted distinct values (the `_unique` helper applied
to one column). -/
def unique_inverse {α : Type} [LinearOrder α] (col : List α) : List Nat :=
  col.map (fun v => (sortedUniques col).indexOf v)

/-- `np.max` over one encoded column. -/
def maxCode {α : Type} [LinearOrder α] (col : List α) : Nat :=
  (unique_inverse col).foldr max 0

/-- One entry of `cg.cardinalities = np.max(cg.data, axis=0) + 1`. -/
def cardinality {α : Type} [LinearOrder α] (col : List α) : Nat :=
  maxCode col + 1

/-- Data preparation: for a discrete test, every column independently
re-indexed (`np.apply_along_axis(_unique, 0, data)`) together with the
per-column cardinalities; otherwise `cg.data = data`, unmodified.  The
matrix is held column-major (`cols` are the `data.shape[1]` columns); the
element type is arbitrary, as `np.unique` only needs equality and an
order (the source deliberately accepts label data such as strings). -/
def prepareData {α : Type} [LinearOrder α] (tk : TestKind) (cols : List (List α)) :
    (List (List Nat) × List Nat) ⊕ List (List α) :=
  if requiresDiscrete tk then Sum.inl (cols.map unique_inverse, cols.map cardinality)
  else Sum.inr cols

/-- The `data` argument as Python sees it: an `np.ndarray` of any dtype
(the element type `α` — numeric or labels) and any rank (`ndarray1` a 1-D
array of elements, `ndarray2` a 2-D array held as its list of columns),
or a value of any other Python type.  The source's
`assert type(data) == np.ndarray` inspects only the Python type, never
the dtype or the shape. -/
inductive PyData (α : Type) where
  | ndarray1 (elems : List α) : PyData α
  | ndarray2 (cols : List (List α)) : PyData α
  | other : PyData α

/-- `skeleton_discovery` including its argument checks, faithful to the
source order: `assert type(data) == np.ndarray` fails on any non-ndarray
(the spec's InvalidArgument), then `assert 0 < alpha < 1` fails on a bad
significance level; both fire before any graph is built or any test
invoked.  An ndarray of any dtype and rank passes both asserts; a 1-D
ndarray then fails at `no_of_var = data.shape[1]` with an IndexError (a
different error, after the argument checks), while a 2-D ndarray of any
element type is processed.  On success the result carries the final state
together with the prepared data (`cg.data` and, for discrete tests,
`cg.cardinalities`). -/
def skeleton_discovery_checked {α : Type} [LinearOrder α] (data : PyData α) (alpha : ℚ)
    (tk : TestKind) (ci : Nat → Nat → List Nat → ℚ) (stable : Bool)
    (bk : Option (Nat → Nat → Bool)) :
    Except String (SDState × ((List (List Nat) × List Nat) ⊕ List (List α))) :=
  match data with
  | .other => Except.error "InvalidArgument"
  | .ndarray1 _ =>
    if 0 < alpha ∧ alpha < 1 then Except.error "IndexError"
    else Except.error "InvalidArgument"
  | .ndarray2 cols =>
    if 0 < alpha ∧ alpha < 1 then
      Except.ok (skeleton_discovery ⟨cols.length, alpha, ci, bk, stable⟩, prepareData tk cols)
    else Except.error "InvalidArgument"

/-! ### Concrete runs used as witnesses and counterexamples -/

/-- An oracle that reports every pair independent (p-value 1). -/
def ciOne : Nat → Nat → List Nat → ℚ := fun _ _ _ => 1

/-- An oracle that reports every pair dependent (p-value 0). -/
def ciZero : Nat → Nat → List Nat → ℚ := fun _ _ _ => 0

/-- An oracle for three variables: `0 ⊥ 1 | [2]` and nothing else. -/
def ciC2 : Nat → Nat → List Nat → ℚ :=
  fun x y S => if x = 0 ∧ y = 1 ∧ S = [2] then 1 else 0

/-- Two fully independent variables, non-stable mode. -/
def PexC1 : SDParams := ⟨2, mkRat 1 2, ciOne, none, false⟩

/-- Two fully independent variables, stable mode. -/
def PexC1s : SDParams := ⟨2, mkRat 1 2, ciOne, none, true⟩

/-- Three variables with `0 ⊥ 1 | [2]`, non-stable mode. -/
def PexC2 : SDParams := ⟨3, mkRat 1 2, ciC2, none, false⟩

/-- Three variables with `0 ⊥ 1 | [2]`, stable mode. -/
def PexC4 : SDParams := ⟨3, mkRat 1 2, ciC2, none, true⟩

/-- A background-knowledge oracle forbidding every directed edge. -/
def bkAll : Option (Nat → Nat → Bool) := some (fun _ _ => true)

/-- Everything statistically dependent but fully forbidden by background
knowledge, non-stable mode. -/
def PexC8 : SDParams := ⟨2, mkRat 1 2, ciZero, bkAll, false⟩

/-- Everything statistically dependent but fully forbidden by background
knowledge, stable mode. -/
def PexC8s : SDParams := ⟨2, mkRat 1 2, ciZero, bkAll, true⟩

/-- The reversed visitation order, as a concrete permutation of the
canonical one. -/
def piRev (P : SDParams) : Nat → Finset (Nat × Nat) → List (Nat × Nat) :=
  fun d adj => (canonicalPairs P d adj).reverse

/-- The spec's example column of raw labels. -/
def exCol : List Char := ['a', 'a', 'b', 'c', 'b']

/-- A two-column 2-D ndarray of character labels — a non-numeric matrix
that the source's type-only assert lets through. -/
def exStrCols : List (List Char) := [['a', 'b'], ['b', 'b']]

/-! ### Basic facts about `combinations` -/

theorem combinations_zero (l : List Nat) : combinations l 0 = [[]] := by
  cases l <;> rfl

theorem combinations_eq_nil : ∀ {l : List Nat} {n : Nat}, l.length < n → combinations l n = []
  | [], _ + 1, _ => rfl
  | _ :: as, n + 1, h => by
    simp only [List.length_cons, Nat.add_lt_add_iff_right] at h
    simp only [combinations, combinations_eq_nil h,
      combinations_eq_nil (Nat.lt_succ_of_lt h), List.map_nil, List.append_nil]

/-! ### Membership in the graph primitives -/

theorem mem_completeAdj {m x y : Nat} :
    (x, y) ∈ completeAdj m ↔ x < m ∧ y < m ∧ x ≠ y := by
  simp [completeAdj, and_assoc]

theorem mem_neighborList {m : Nat} {adj : Finset (Nat × Nat)} {x y : Nat} :
    y ∈ neighborList m adj x ↔ y < m ∧ (x, y) ∈ adj := by
  simp [neighborList]

theorem neighborList_nodup (m : Nat) (adj : Finset (Nat × Nat)) (x : Nat) :
    (neighborList m adj x).Nodup :=
  (List.nodup_range m).filter _

theorem neighborList_length_le (m : Nat) (adj : Finset (Nat × Nat)) (x : Nat) :
    (neighborList m adj x).length ≤ m := by
  simpa using (List.length_filter_le _ (List.range m))

theorem neighborList_mono {adj adj' : Finset (Nat × Nat)} (h : adj ⊆ adj') (m x : Nat) :
    List.Sublist (neighborList m adj x) (neighborList m adj' x) :=
  List.monotone_filter_right _ (fun y hy => by
    simp only [decide_eq_true_eq] at hy ⊢
    exact h hy)

theorem mem_eraseEdge {adj : Finset (Nat × Nat)} {p : Nat × Nat} {e : Nat × Nat} :
    e ∈ eraseEdge adj p ↔ e ∈ adj ∧ e ≠ (p.1, p.2) ∧ e ≠ (p.2, p.1) := by
  simp only [eraseEdge, Finset.mem_erase]
  tauto

theorem eraseEdge_subset (adj : Finset (Nat × Nat)) (p : Nat × Nat) :
    eraseEdge adj p ⊆ adj :=
  fun _ he => (mem_eraseEdge.mp he).1

theorem mem_removeEdges {l : List (Nat × Nat)} {adj : Finset (Nat × Nat)} {e : Nat × Nat} :
    e ∈ removeEdges adj l ↔ e ∈ adj ∧ ∀ p ∈ l, e ≠ (p.1, p.2) ∧ e ≠ (p.2, p.1) := by
  induction l generalizing adj with
  | nil => simp [removeEdges]
  | cons p l ih =>
    simp only [removeEdges, List.foldl_cons] at *
    rw [ih, mem_eraseEdge]
    constructor
    · rintro ⟨⟨he, h1, h2⟩, hl⟩
      exact ⟨he, fun q hq => by
        rcases List.mem_cons.mp hq with rfl | hq
        · exact ⟨h1, h2⟩
        · exact hl q hq⟩
    · rintro ⟨he, hl⟩
      exact ⟨⟨he, (hl p (List.mem_cons_self p l)).1, (hl p (List.mem_cons_self p l)).2⟩,
        fun q hq => hl q (List.mem_cons_of_mem p hq)⟩

theorem removeEdges_subset (adj : Finset (Nat × Nat)) (l : List (Nat × Nat)) :
    removeEdges adj l ⊆ adj :=
  fun _ he => (mem_removeEdges.mp he).1

/-! ### Max-degree lemmas -/

theorem le_foldr_max {a : Nat} {l : List Nat} (h : a ∈ l) : a ≤ l.foldr max 0 := by
  induction l with
  | nil => cases h
  | cons b l ih =>
    rcases List.mem_cons.mp h with rfl | h
    · exact Nat.le_max_left _ _
    · exact Nat.le_trans (ih h) (Nat.le_max_right _ _)

theorem foldr_max_le {k : Nat} {l : List Nat} (h : ∀ a ∈ l, a ≤ k) : l.foldr max 0 ≤ k := by
  induction l with
  | nil => exact Nat.zero_le k
  | cons b l ih =>
    exact Nat.max_le.mpr ⟨h b (List.mem_cons_self b l), ih fun a ha => h a (List.mem_cons_of_mem b ha)⟩

theorem degree_le_maxDegree {m : Nat} (adj : Finset (Nat × Nat)) {x : Nat} (hx : x < m) :
    (neighborList m adj x).length ≤ maxDegree m adj :=
  le_foldr_max (List.mem_map_of_mem _ (List.mem_range.mpr hx))

theorem maxDegree_le {m k : Nat} {adj : Finset (Nat × Nat)}
    (h : ∀ x, x < m → (neighborList m adj x).length ≤ k) : maxDegree m adj ≤ k := by
  refine foldr_max_le ?_
  intro a ha
  rcases List.mem_map.mp ha with ⟨x, hx, rfl⟩
  exact h x (List.mem_range.mp hx)

theorem maxDegree_le_m (m : Nat) (adj : Finset (Nat × Nat)) : maxDegree m adj ≤ m :=
  maxDegree_le fun x _ => neighborList_length_le m adj x

theorem maxDegree_mono {m : Nat} {adj adj' : Finset (Nat × Nat)} (h : adj ⊆ adj') :
    maxDegree m adj ≤ maxDegree m adj' := by
  refine maxDegree_le fun x hx => ?_
  exact Nat.le_trans ((neighborList_mono h m x).length_le) (degree_le_maxDegree adj' hx)

/-! ### Effect of one pair / one vertex on each state component -/

theorem pairEffect_adj_subset (P : SDParams) (x y : Nat) (dec : Option (List Nat)) (st : SDState) :
    (pairEffect P x y dec st).adj ⊆ st.adj := by
  rcases dec with _ | S
  · exact fun _ h => h
  · simp only [pairEffect]
    split
    · exact fun _ h => h
    · exact eraseEdge_subset _ _

theorem pairEffect_adj_stable {P : SDParams} (hs : P.stable = true)
    (x y : Nat) (dec : Option (List Nat)) (st : SDState) :
    (pairEffect P x y dec st).adj = st.adj := by
  rcases dec with _ | S
  · rfl
  · simp [pairEffect, hs]

theorem pairEffect_sepset_superset (P : SDParams) (x y : Nat) (dec : Option (List Nat))
    (st : SDState) : st.sepset ⊆ (pairEffect P x y dec st).sepset := by
  rcases dec with _ | S
  · exact fun _ h => h
  · simp only [pairEffect]
    split
    · exact fun t ht => Finset.mem_insert_of_mem (Finset.mem_insert_of_mem ht)
    · exact fun _ h => h

theorem pairEffect_sepset_nonstable {P : SDParams} (hns : P.stable = false)
    (x y : Nat) (dec : Option (List Nat)) (st : SDState) :
    (pairEffect P x y dec st).sepset = st.sepset := by
  rcases dec with _ | S
  · rfl
  · simp [pairEffect, hns]

theorem pairEffect_trace (P : SDParams) (x y : Nat) (dec : Option (List Nat)) (st : SDState) :
    (pairEffect P x y dec st).trace = st.trace := by
  rcases dec with _ | S
  · rfl
  · simp only [pairEffect]
    split <;> rfl

theorem processPair_adj_subset (P : SDParams) (d x : Nat) (NeighX : List Nat)
    (adjX : Finset (Nat × Nat)) (st : SDState) (y : Nat) :
    (processPair P d x NeighX adjX st y).adj ⊆ st.adj :=
  pairEffect_adj_subset P x y _ _

theorem processPair_adj_stable {P : SDParams} (hs : P.stable = true) (d x : Nat)
    (NeighX : List Nat) (adjX : Finset (Nat × Nat)) (st : SDState) (y : Nat) :
    (processPair P d x NeighX adjX st y).adj = st.adj :=
  pairEffect_adj_stable hs x y _ _

theorem processPair_sepset_superset (P : SDParams) (d x : Nat) (NeighX : List Nat)
    (adjX : Finset (Nat × Nat)) (st : SDState) (y : Nat) :
    st.sepset ⊆ (processPair P d x NeighX adjX st y).sepset := by
  unfold processPair
  exact fun t ht => pairEffect_sepset_superset P x y _ _ ht

theorem processPair_sepset_nonstable {P : SDParams} (hns : P.stable = false) (d x : Nat)
    (NeighX : List Nat) (adjX : Finset (Nat × Nat)) (st : SDState) (y : Nat) :
    (processPair P d x NeighX adjX st y).sepset = st.sepset :=
  pairEffect_sepset_nonstable hns x y _ _

theorem foldl_processPair_adj_subset (P : SDParams) (d x : Nat) (NeighX : List Nat)
    (adjX : Finset (Nat × Nat)) (l : List Nat) (st : SDState) :
    (l.foldl (processPair P d x NeighX adjX) st).adj ⊆ st.adj := by
  induction l generalizing st with
  | nil => exact fun _ h => h
  | cons y l ih =>
    exact fun e he =>
      processPair_adj_subset P d x NeighX adjX st y (ih (processPair P d x NeighX adjX st y) he)

theorem processX_adj_subset (P : SDParams) (d : Nat) (st : SDState) (x : Nat) :
    (processX P d st x).adj ⊆ st.adj := by
  unfold processX
  split
  · exact fun _ h => h
  · exact foldl_processPair_adj_subset P d x _ _ _ st

theorem foldl_processX_adj_subset (P : SDParams) (d : Nat) (l : List Nat) (st : SDState) :
    (l.foldl (processX P d) st).adj ⊆ st.adj := by
  induction l generalizing st with
  | nil => exact fun _ h => h
  | cons x l ih =>
    exact fun e he => processX_adj_subset P d st x (ih (processX P d st x) he)

theorem passCore_adj_subset (P : SDParams) (d : Nat) (st : SDState) :
    (passCore P d st).adj ⊆ st.adj :=
  foldl_processX_adj_subset P d _ _

theorem depthPass_adj_subset (P : SDParams) (d : Nat) (st : SDState) :
    (depthPass P d st).adj ⊆ st.adj :=
  fun _ he => passCore_adj_subset P d st (removeEdges_subset _ _ he)

theorem sdLoop_adj_subset (P : SDParams) (fuel : Nat) (st : SDState) (nd : Nat) :
    (sdLoop P fuel st nd).1.adj ⊆ st.adj := by
  induction fuel generalizing st nd with
  | zero => exact fun _ h => h
  | succ fuel ih =>
    simp only [sdLoop]
    split
    · exact fun e he => depthPass_adj_subset P nd st (ih (depthPass P nd st) (nd + 1) he)
    · exact fun _ h => h

theorem foldl_processPair_sepset_superset (P : SDParams) (d x : Nat) (NeighX : List Nat)
    (adjX : Finset (Nat × Nat)) (l : List Nat) (st : SDState) :
    st.sepset ⊆ (l.foldl (processPair P d x NeighX adjX) st).sepset := by
  induction l generalizing st with
  | nil => exact fun _ h => h
  | cons y l ih =>
    exact fun t ht =>
      ih (processPair P d x NeighX adjX st y)
        (processPair_sepset_superset P d x NeighX adjX st y ht)

theorem processX_sepset_superset (P : SDParams) (d : Nat) (st : SDState) (x : Nat) :
    st.sepset ⊆ (processX P d st x).sepset := by
  unfold processX
  split
  · exact fun _ h => h
  · exact foldl_processPair_sepset_superset P d x _ _ _ st

theorem passCore_sepset_superset (P : SDParams) (d : Nat) (st : SDState) :
    st.sepset ⊆ (passCore P d st).sepset := by
  show st.sepset ⊆ ((List.range P.m).foldl (processX P d) { st with pending := [] }).sepset
  generalize hst : ({ st with pending := [] } : SDState) = st0
  have h0 : st.sepset = st0.sepset := by rw [← hst]
  rw [h0]
  clear hst h0
  induction (List.range P.m) generalizing st0 with
  | nil => exact fun _ h => h
  | cons x l ih =>
    exact fun t ht => ih (processX P d st0 x) (processX_sepset_superset P d st0 x ht)

theorem depthPass_sepset_superset (P : SDParams) (d : Nat) (st : SDState) :
    st.sepset ⊆ (depthPass P d st).sepset :=
  passCore_sepset_superset P d st

theorem sdLoop_sepset_superset (P : SDParams) (fuel : Nat) (st : SDState) (nd : Nat) :
    st.sepset ⊆ (sdLoop P fuel st nd).1.sepset := by
  induction fuel generalizing st nd with
  | zero => exact fun _ h => h
  | succ fuel ih =>
    simp only [sdLoop]
    split
    · exact fun t ht =>
        ih (depthPass P nd st) (nd + 1) (depthPass_sepset_superset P nd st ht)
    · exact fun _ h => h

theorem runPairs_adj {P : SDParams} (hs : P.stable = true) (d : Nat)
    (adj0 : Finset (Nat × Nat)) (L : List (Nat × Nat)) (st : SDState) :
    (runPairs P d adj0 L st).adj = st.adj := by
  induction L generalizing st with
  | nil => rfl
  | cons p L ih =>
    show (runPairs P d adj0 L (stablePairStep P d adj0 st p)).adj = st.adj
    rw [ih, stablePairStep, processPair_adj_stable hs]

theorem mem_sepset_pairEffect {P : SDParams} (hs : P.stable = true) (x y : Nat)
    (dec : Option (List Nat)) (st : SDState) (t : Nat × Nat × List Nat) :
    t ∈ (pairEffect P x y dec st).sepset ↔
      t ∈ st.sepset ∨ ∃ S, dec = some S ∧ (t = (x, y, S) ∨ t = (y, x, S)) := by
  rcases dec with _ | S
  · simp [pairEffect]
  · simp only [pairEffect, hs, if_true, Finset.mem_insert, Option.some.injEq]
    constructor
    · rintro (rfl | rfl | h)
      · exact Or.inr ⟨S, rfl, Or.inl rfl⟩
      · exact Or.inr ⟨S, rfl, Or.inr rfl⟩
      · exact Or.inl h
    · rintro (h | ⟨S', rfl, rfl | rfl⟩)
      · exact Or.inr (Or.inr h)
      · exact Or.inl rfl
      · exact Or.inr (Or.inl rfl)

theorem mem_pending_pairEffect {P : SDParams} (hs : P.stable = true) (x y : Nat)
    (dec : Option (List Nat)) (st : SDState) (q : Nat × Nat) :
    q ∈ (pairEffect P x y dec st).pending ↔
      q ∈ st.pending ∨ (dec.isSome ∧ (q = (x, y) ∨ q = (y, x))) := by
  rcases dec with _ | S
  · simp [pairEffect]
  · simp only [pairEffect, hs, if_true, List.mem_append, List.mem_cons,
      List.mem_singleton, Option.isSome_some, true_and, List.not_mem_nil, or_false]

theorem mem_sepset_runPairs {P : SDParams} (hs : P.stable = true) (d : Nat)
    (adj0 : Finset (Nat × Nat)) (L : List (Nat × Nat)) (st : SDState)
    (t : Nat × Nat × List Nat) :
    t ∈ (runPairs P d adj0 L st).sepset ↔
      t ∈ st.sepset ∨ ∃ p ∈ L, ∃ S, decP P d adj0 p = some S ∧
        (t = (p.1, p.2, S) ∨ t = (p.2, p.1, S)) := by
  induction L generalizing st with
  | nil => simp [runPairs]
  | cons p L ih =>
    show t ∈ (runPairs P d adj0 L (stablePairStep P d adj0 st p)).sepset ↔ _
    rw [ih]
    have h1 : t ∈ (stablePairStep P d adj0 st p).sepset ↔
        t ∈ st.sepset ∨ ∃ S, decP P d adj0 p = some S ∧
          (t = (p.1, p.2, S) ∨ t = (p.2, p.1, S)) := by
      unfold stablePairStep processPair
      exact mem_sepset_pairEffect hs p.1 p.2 _ _ t
    rw [h1]
    simp only [List.mem_cons]
    constructor
    · rintro ((h | h) | ⟨q, hq, h⟩)
      · exact Or.inl h
      · exact Or.inr ⟨p, Or.inl rfl, h⟩
      · exact Or.inr ⟨q, Or.inr hq, h⟩
    · rintro (h | ⟨q, rfl | hq, h⟩)
      · exact Or.inl (Or.inl h)
      · exact Or.inl (Or.inr h)
      · exact Or.inr ⟨q, hq, h⟩

theorem mem_pending_runPairs {P : SDParams} (hs : P.stable = true) (d : Nat)
    (adj0 : Finset (Nat × Nat)) (L : List (Nat × Nat)) (st : SDState) (q : Nat × Nat) :
    q ∈ (runPairs P d adj0 L st).pending ↔
      q ∈ st.pending ∨ ∃ p ∈ L, (decP P d adj0 p).isSome ∧ (q = p ∨ q = (p.2, p.1)) := by
  induction L generalizing st with
  | nil => simp [runPairs]
  | cons p L ih =>
    show q ∈ (runPairs P d adj0 L (stablePairStep P d adj0 st p)).pending ↔ _
    rw [ih]
    have h1 : q ∈ (stablePairStep P d adj0 st p).pending ↔
        q ∈ st.pending ∨ ((decP P d adj0 p).isSome ∧ (q = p ∨ q = (p.2, p.1))) := by
      unfold stablePairStep processPair
      rw [mem_pending_pairEffect hs p.1 p.2 _ _ q]
      rfl
    rw [h1]
    simp only [List.mem_cons]
    constructor
    · rintro ((h | h) | ⟨r, hr, h⟩)
      · exact Or.inl h
      · exact Or.inr ⟨p, Or.inl rfl, h⟩
      · exact Or.inr ⟨r, Or.inr hr, h⟩
    · rintro (h | ⟨r, rfl | hr, h⟩)
      · exact Or.inl (Or.inl h)
      · exact Or.inl (Or.inr h)
      · exact Or.inr ⟨r, hr, h⟩

theorem runPairs_append (P : SDParams) (d : Nat) (adj0 : Finset (Nat × Nat))
    (L1 L2 : List (Nat × Nat)) (st : SDState) :
    runPairs P d adj0 (L1 ++ L2) st = runPairs P d adj0 L2 (runPairs P d adj0 L1 st) := by
  unfold runPairs
  rw [List.foldl_append]

theorem processX_eq_runPairs (P : SDParams) (d : Nat)
    (st : SDState) (x : Nat) :
    processX P d st x = runPairs P d st.adj
      (if (neighborList P.m st.adj x).length + 1 < d then []
       else (neighborList P.m st.adj x).map (fun y => (x, y))) st := by
  by_cases h : (neighborList P.m st.adj x).length + 1 < d
  · simp only [processX, h, if_true]
    rfl
  · simp only [processX, h, if_false]
    show _ = ((neighborList P.m st.adj x).map fun y => (x, y)).foldl
      (stablePairStep P d st.adj) st
    rw [List.foldl_map]
    rfl

theorem foldl_processX_eq_runPairs {P : SDParams} (hs : P.stable = true) (d : Nat)
    (adj0 : Finset (Nat × Nat)) (l : List Nat) (st : SDState) (hadj : st.adj = adj0) :
    l.foldl (processX P d) st = runPairs P d adj0
      (l.flatMap (fun x =>
        if (neighborList P.m adj0 x).length + 1 < d then []
        else (neighborList P.m adj0 x).map (fun y => (x, y)))) st := by
  induction l generalizing st with
  | nil => rfl
  | cons x l ih =>
    rw [List.foldl_cons, List.flatMap_cons, runPairs_append]
    have hx : processX P d st x = runPairs P d adj0
        (if (neighborList P.m adj0 x).length + 1 < d then []
         else (neighborList P.m adj0 x).map (fun y => (x, y))) st := by
      rw [processX_eq_runPairs, hadj]
    rw [hx]
    exact ih _ (by rw [runPairs_adj hs, hadj])

theorem passCore_eq_runPairs {P : SDParams} (hs : P.stable = true) (d : Nat) (st : SDState) :
    passCore P d st =
      runPairs P d st.adj (canonicalPairs P d st.adj) { st with pending := [] } := by
  unfold passCore canonicalPairs
  exact foldl_processX_eq_runPairs hs d st.adj (List.range P.m) { st with pending := [] } rfl

theorem depthPass_eq_ord {P : SDParams} (hs : P.stable = true) (d : Nat) (st : SDState) :
    depthPass P d st = depthPassOrd P d (canonicalPairs P d st.adj) st := by
  unfold depthPass depthPassOrd
  rw [passCore_eq_runPairs hs]

/-! ### Order invariance of the stable-mode pass -/

theorem mem_adj_depthPassOrd {P : SDParams} (hs : P.stable = true) (d : Nat)
    (L : List (Nat × Nat)) (st : SDState) (e : Nat × Nat) :
    e ∈ (depthPassOrd P d L st).adj ↔
      e ∈ st.adj ∧ ∀ p ∈ L, (decP P d st.adj p).isSome →
        e ≠ (p.1, p.2) ∧ e ≠ (p.2, p.1) := by
  unfold depthPassOrd finalizePass
  rw [mem_removeEdges, runPairs_adj hs]
  constructor
  · rintro ⟨he, h⟩
    refine ⟨he, fun p hp hdec => ?_⟩
    have h1 : p ∈ (runPairs P d st.adj L { st with pending := [] }).pending.dedup := by
      rw [List.mem_dedup, mem_pending_runPairs hs]
      exact Or.inr ⟨p, hp, hdec, Or.inl rfl⟩
    exact h p h1
  · rintro ⟨he, h⟩
    refine ⟨he, fun p hp => ?_⟩
    rw [List.mem_dedup, mem_pending_runPairs hs] at hp
    rcases hp with hp | ⟨r, hr, hdec, h1 | h1⟩
    · simp at hp
    · subst h1
      exact h _ hr hdec
    · subst h1
      have h2 := h _ hr hdec
      exact ⟨h2.2, h2.1⟩

theorem mem_sepset_depthPassOrd {P : SDParams} (hs : P.stable = true) (d : Nat)
    (L : List (Nat × Nat)) (st : SDState) (t : Nat × Nat × List Nat) :
    t ∈ (depthPassOrd P d L st).sepset ↔
      t ∈ st.sepset ∨ ∃ p ∈ L, ∃ S, decP P d st.adj p = some S ∧
        (t = (p.1, p.2, S) ∨ t = (p.2, p.1, S)) := by
  unfold depthPassOrd finalizePass
  show t ∈ (runPairs P d st.adj L { st with pending := [] }).sepset ↔ _
  rw [mem_sepset_runPairs hs]

theorem depthPassOrd_congr {P : SDParams} (hs : P.stable = true) (d : Nat)
    (L L' : List (Nat × Nat)) (st st' : SDState)
    (hadj : st'.adj = st.adj) (hsep : st'.sepset = st.sepset)
    (hL : ∀ p, p ∈ L' ↔ p ∈ L) :
    (depthPassOrd P d L' st').adj = (depthPassOrd P d L st).adj ∧
      (depthPassOrd P d L' st').sepset = (depthPassOrd P d L st).sepset := by
  constructor
  · ext e
    rw [mem_adj_depthPassOrd hs, mem_adj_depthPassOrd hs, hadj, hsep] at *
    constructor
    · rintro ⟨he, h⟩
      exact ⟨he, fun p hp => h p ((hL p).mpr hp)⟩
    · rintro ⟨he, h⟩
      exact ⟨he, fun p hp => h p ((hL p).mp hp)⟩
  · ext t
    rw [mem_sepset_depthPassOrd hs, mem_sepset_depthPassOrd hs, hadj, hsep]
    constructor
    · rintro (h | ⟨p, hp, h⟩)
      · exact Or.inl h
      · exact Or.inr ⟨p, (hL p).mp hp, h⟩
    · rintro (h | ⟨p, hp, h⟩)
      · exact Or.inl h
      · exact Or.inr ⟨p, (hL p).mpr hp, h⟩

/-! ### Data preparation: dense integer re-indexing of discrete columns -/

theorem mem_sortedUniques {α : Type} [LinearOrder α] {col : List α} {v : α} :
    v ∈ sortedUniques col ↔ v ∈ col := by
  unfold sortedUniques
  rw [List.mem_insertionSort]
  exact List.mem_dedup

theorem nodup_sortedUniques {α : Type} [LinearOrder α] (col : List α) :
    (sortedUniques col).Nodup :=
  (List.perm_insertionSort _ _).nodup_iff.mpr (List.nodup_dedup col)

theorem length_sortedUniques {α : Type} [LinearOrder α] (col : List α) :
    (sortedUniques col).length = col.dedup.length :=
  List.length_insertionSort _ col.dedup

theorem unique_inverse_length {α : Type} [LinearOrder α] (col : List α) :
    (unique_inverse col).length = col.length :=
  List.length_map _ _

theorem unique_inverse_get {α : Type} [LinearOrder α] (col : List α) (i : Nat)
    (hi : i < col.length) (hi2 : i < (unique_inverse col).length) :
    (unique_inverse col).get ⟨i, hi2⟩ = (sortedUniques col).indexOf (col.get ⟨i, hi⟩) := by
  simp only [List.get_eq_getElem, unique_inverse, List.getElem_map]

theorem unique_inverse_eq_of_eq {α : Type} [LinearOrder α] (col : List α) (i j : Nat)
    (hi : i < col.length) (hj : j < col.length)
    (hi2 : i < (unique_inverse col).length) (hj2 : j < (unique_inverse col).length)
    (h : col.get ⟨i, hi⟩ = col.get ⟨j, hj⟩) :
    (unique_inverse col).get ⟨i, hi2⟩ = (unique_inverse col).get ⟨j, hj2⟩ := by
  rw [unique_inverse_get col i hi hi2, unique_inverse_get col j hj hj2, h]

theorem unique_inverse_ne_of_ne {α : Type} [LinearOrder α] (col : List α) (i j : Nat)
    (hi : i < col.length) (hj : j < col.length)
    (hi2 : i < (unique_inverse col).length) (hj2 : j < (unique_inverse col).length)
    (h : col.get ⟨i, hi⟩ ≠ col.get ⟨j, hj⟩) :
    (unique_inverse col).get ⟨i, hi2⟩ ≠ (unique_inverse col).get ⟨j, hj2⟩ := by
  rw [unique_inverse_get col i hi hi2, unique_inverse_get col j hj hj2]
  intro hc
  refine h ?_
  have h1 : col.get ⟨i, hi⟩ ∈ sortedUniques col :=
    mem_sortedUniques.mpr (List.get_mem col i hi)
  have h2 : col.get ⟨j, hj⟩ ∈ sortedUniques col :=
    mem_sortedUniques.mpr (List.get_mem col j hj)
  exact (List.indexOf_inj h1 h2).mp hc

theorem unique_inverse_lt {α : Type} [LinearOrder α] (col : List α) (c : Nat)
    (hc : c ∈ unique_inverse col) : c < col.dedup.length := by
  rcases List.mem_map.mp hc with ⟨v, hv, rfl⟩
  rw [← length_sortedUniques]
  exact List.indexOf_lt_length.mpr (mem_sortedUniques.mpr hv)

theorem unique_inverse_surj {α : Type} [LinearOrder α] (col : List α) (j : Nat)
    (hj : j < col.dedup.length) : j ∈ unique_inverse col := by
  have hj2 : j < (sortedUniques col).length := by rw [length_sortedUniques] ; exact hj
  have hmem : (sortedUniques col)[j] ∈ col := mem_sortedUniques.mp (List.getElem_mem hj2)
  refine List.mem_map.mpr ⟨(sortedUniques col)[j], hmem, ?_⟩
  have hidx : (sortedUniques col).indexOf (sortedUniques col)[j] < (sortedUniques col).length :=
    List.indexOf_lt_length.mpr (List.getElem_mem hj2)
  exact ((nodup_sortedUniques col).getElem_inj_iff).mp (List.getElem_indexOf hidx)

theorem maxCode_eq {α : Type} [LinearOrder α] (col : List α) (hne : col ≠ []) :
    maxCode col = col.dedup.length - 1 := by
  have hD : 0 < col.dedup.length := by
    rcases List.exists_mem_of_ne_nil col hne with ⟨v, hv⟩
    exact List.length_pos_of_mem (List.mem_dedup.mpr hv)
  refine Nat.le_antisymm ?_ ?_
  · exact foldr_max_le (fun c hcm => by
      have := unique_inverse_lt col c hcm
      omega)
  · exact le_foldr_max (unique_inverse_surj col (col.dedup.length - 1) (by omega))

theorem cardinality_eq {α : Type} [LinearOrder α] (col : List α) (hne : col ≠ []) :
    cardinality col = col.dedup.length := by
  have hD : 0 < col.dedup.length := by
    rcases List.exists_mem_of_ne_nil col hne with ⟨v, hv⟩
    exact List.length_pos_of_mem (List.mem_dedup.mpr hv)
  unfold cardinality
  rw [maxCode_eq col hne]
  omega

/-! ### What each processed pair observes (trace lemmas) -/

theorem processPair_trace (P : SDParams) (d x : Nat) (NeighX : List Nat)
    (adjX : Finset (Nat × Nat)) (st : SDState) (y : Nat) :
    (processPair P d x NeighX adjX st y).trace =
      st.trace ++ [⟨d, x, y, adjX, st.adj, NeighX.filter (fun z => decide (z ≠ y))⟩] := by
  unfold processPair
  rw [pairEffect_trace]

theorem mem_trace_foldl_processPair (P : SDParams) (d x : Nat) (NeighX : List Nat)
    (adjX : Finset (Nat × Nat)) (l : List Nat) :
    ∀ st : SDState, ∀ e ∈ (l.foldl (processPair P d x NeighX adjX) st).trace,
      e ∈ st.trace ∨ (e.d = d ∧ e.x = x ∧ e.adjX = adjX ∧ e.y ∈ l ∧
        e.cands = NeighX.filter (fun z => decide (z ≠ e.y))) := by
  induction l with
  | nil => intro st e he ; exact Or.inl he
  | cons y l ih =>
    intro st e he
    rw [List.foldl_cons] at he
    rcases ih (processPair P d x NeighX adjX st y) e he with he' | hprop
    · rw [processPair_trace, List.mem_append] at he'
      rcases he' with he' | he'
      · exact Or.inl he'
      · rw [List.mem_singleton] at he'
        subst he'
        exact Or.inr ⟨rfl, rfl, rfl, List.mem_cons_self y l, rfl⟩
    · exact Or.inr ⟨hprop.1, hprop.2.1, hprop.2.2.1,
        List.mem_cons_of_mem y hprop.2.2.2.1, hprop.2.2.2.2⟩

theorem mem_trace_processX (P : SDParams) (d : Nat) (st : SDState) (x : Nat) :
    ∀ e ∈ (processX P d st x).trace, e ∈ st.trace ∨
      (e.d = d ∧ e.x = x ∧ e.adjX = st.adj ∧
        e.cands = (neighborList P.m st.adj x).filter (fun z => decide (z ≠ e.y)) ∧
        ∀ z ∈ e.cands, (x, z) ∈ st.adj) := by
  intro e he
  unfold processX at he
  split at he
  · exact Or.inl he
  · rcases mem_trace_foldl_processPair P d x (neighborList P.m st.adj x) st.adj
      (neighborList P.m st.adj x) st e he with he' | hprop
    · exact Or.inl he'
    · refine Or.inr ⟨hprop.1, hprop.2.1, hprop.2.2.1, hprop.2.2.2.2, ?_⟩
      intro z hz
      rw [hprop.2.2.2.2, List.mem_filter] at hz
      exact (mem_neighborList.mp hz.1).2

theorem mem_trace_runPairs {P : SDParams} (hs : P.stable = true) (d : Nat)
    (adj0 : Finset (Nat × Nat)) (L : List (Nat × Nat)) :
    ∀ st : SDState, st.adj = adj0 →
      ∀ e ∈ (runPairs P d adj0 L st).trace,
        e ∈ st.trace ∨ (e.adjX = adj0 ∧ e.adjP = adj0) := by
  induction L with
  | nil => intro st _ e he ; exact Or.inl he
  | cons p L ih =>
    intro st hadj e he
    have hstep : (stablePairStep P d adj0 st p).adj = st.adj :=
      processPair_adj_stable hs d p.1 _ _ st p.2
    rcases ih (stablePairStep P d adj0 st p) (hstep.trans hadj) e he with he' | hprop
    · unfold stablePairStep at he'
      rw [processPair_trace, List.mem_append] at he'
      rcases he' with he' | he'
      · exact Or.inl he'
      · rw [List.mem_singleton] at he'
        subst he'
        exact Or.inr ⟨rfl, hadj⟩
    · exact Or.inr hprop

theorem mem_trace_passCore {P : SDParams} (hs : P.stable = true) (d : Nat) (st : SDState) :
    ∀ e ∈ (passCore P d st).trace, e ∈ st.trace ∨ (e.adjX = st.adj ∧ e.adjP = st.adj) := by
  rw [passCore_eq_runPairs hs]
  exact mem_trace_runPairs hs d st.adj (canonicalPairs P d st.adj) { st with pending := [] } rfl

theorem passCore_adj_stable {P : SDParams} (hs : P.stable = true) (d : Nat) (st : SDState) :
    (passCore P d st).adj = st.adj := by
  rw [passCore_eq_runPairs hs, runPairs_adj hs]

/-! ### The separation set store in non-stable mode -/

theorem foldl_processPair_sepset_nonstable {P : SDParams} (hns : P.stable = false)
    (d x : Nat) (NeighX : List Nat) (adjX : Finset (Nat × Nat)) (l : List Nat) (st : SDState) :
    (l.foldl (processPair P d x NeighX adjX) st).sepset = st.sepset := by
  induction l generalizing st with
  | nil => rfl
  | cons y l ih =>
    rw [List.foldl_cons, ih, processPair_sepset_nonstable hns]

theorem processX_sepset_nonstable {P : SDParams} (hns : P.stable = false)
    (d : Nat) (st : SDState) (x : Nat) :
    (processX P d st x).sepset = st.sepset := by
  unfold processX
  split
  · rfl
  · exact foldl_processPair_sepset_nonstable hns d x _ _ _ st

theorem foldl_processX_sepset_nonstable {P : SDParams} (hns : P.stable = false)
    (d : Nat) (l : List Nat) :
    ∀ st : SDState, (l.foldl (processX P d) st).sepset = st.sepset := by
  induction l with
  | nil => intro st ; rfl
  | cons x l ih =>
    intro st
    rw [List.foldl_cons, ih, processX_sepset_nonstable hns]

theorem depthPass_sepset_nonstable {P : SDParams} (hns : P.stable = false)
    (d : Nat) (st : SDState) :
    (depthPass P d st).sepset = st.sepset := by
  show ((List.range P.m).foldl (processX P d) { st with pending := [] }).sepset = st.sepset
  rw [foldl_processX_sepset_nonstable hns]

theorem sdLoop_sepset_nonstable {P : SDParams} (hns : P.stable = false) (fuel : Nat) :
    ∀ (st : SDState) (nd : Nat), (sdLoop P fuel st nd).1.sepset = st.sepset := by
  induction fuel with
  | zero => intro st nd ; rfl
  | succ fuel ih =>
    intro st nd
    by_cases hg : nd < maxDegree P.m st.adj
    · simp only [sdLoop, hg, if_true]
      rw [ih, depthPass_sepset_nonstable hns]
    · simp only [sdLoop, hg, if_false]

/-! ### The background-knowledge shortcut -/

theorem find?_eq_head? {α : Type} (p : α → Bool) (l : List α) (h : ∀ a ∈ l, p a = true) :
    l.find? p = l.head? := by
  cases l with
  | nil => rfl
  | cons a l =>
    rw [List.find?_cons_of_pos _ (h a (List.mem_cons_self a l))]
    rfl

theorem sepDecision_bk (P : SDParams) {x y : Nat} (hbk : bkBothForbidden P x y = true)
    (d : Nat) (cands : List Nat) :
    sepDecision P d x y cands = (combinations cands d).head? := by
  unfold sepDecision
  exact find?_eq_head? _ _ (fun S _ => by simp [sepFound, hbk])

theorem sepDecision_bk_d0 {P : SDParams} {x y : Nat} (hbk : bkBothForbidden P x y = true)
    (cands : List Nat) : sepDecision P 0 x y cands = some [] := by
  rw [sepDecision_bk P hbk, combinations_zero]
  rfl

theorem mem_canonicalPairs {P : SDParams} {d : Nat} {adj0 : Finset (Nat × Nat)}
    {p : Nat × Nat} :
    p ∈ canonicalPairs P d adj0 ↔ p.1 < P.m ∧
      ¬((neighborList P.m adj0 p.1).length + 1 < d) ∧
      p.2 ∈ neighborList P.m adj0 p.1 := by
  unfold canonicalPairs
  simp only [List.mem_flatMap, List.mem_range]
  constructor
  · rintro ⟨a, ha, hp⟩
    by_cases hc : (neighborList P.m adj0 a).length + 1 < d
    · rw [if_pos hc] at hp
      cases hp
    · rw [if_neg hc] at hp
      rcases List.mem_map.mp hp with ⟨y, hy, rfl⟩
      exact ⟨ha, hc, hy⟩
  · rintro ⟨h1, h2, h3⟩
    refine ⟨p.1, h1, ?_⟩
    rw [if_neg h2]
    exact List.mem_map.mpr ⟨p.2, h3, rfl⟩

theorem decP_bk_d0 {P : SDParams} {x y : Nat} (hbk : bkBothForbidden P x y = true)
    (adj0 : Finset (Nat × Nat)) : decP P 0 adj0 (x, y) = some [] :=
  sepDecision_bk_d0 hbk _

theorem processPair_removes {P : SDParams} (hns : P.stable = false) {d x y : Nat}
    (NeighX : List Nat) (adjX : Finset (Nat × Nat)) (st : SDState) (S : List Nat)
    (hdec : sepDecision P d x y (NeighX.filter (fun z => decide (z ≠ y))) = some S) :
    (processPair P d x NeighX adjX st y).adj = eraseEdge st.adj (x, y) := by
  unfold processPair
  rw [hdec]
  simp [pairEffect, hns]

theorem foldl_processPair_d0_bk {P : SDParams} (hns : P.stable = false) {x y : Nat}
    (hbk : bkBothForbidden P x y = true) (NeighX : List Nat) (adjX : Finset (Nat × Nat))
    (l : List Nat) (hy : y ∈ l) :
    ∀ st : SDState, (x, y) ∉ (l.foldl (processPair P 0 x NeighX adjX) st).adj := by
  induction l with
  | nil => cases hy
  | cons z l ih =>
    intro st
    rw [List.foldl_cons]
    by_cases hyl : y ∈ l
    · exact ih hyl _
    · have hz : y = z := (List.mem_cons.mp hy).resolve_right hyl
      subst hz
      have hrm : (processPair P 0 x NeighX adjX st y).adj = eraseEdge st.adj (x, y) :=
        processPair_removes hns NeighX adjX st [] (sepDecision_bk_d0 hbk _)
      intro hc
      have h2 := foldl_processPair_adj_subset P 0 x NeighX adjX l _ hc
      rw [hrm] at h2
      exact (mem_eraseEdge.mp h2).2.1 rfl

theorem processX_d0_bk {P : SDParams} (hns : P.stable = false) {x y : Nat}
    (hbk : bkBothForbidden P x y = true) {st : SDState} (hmem : (x, y) ∈ st.adj)
    (hym : y < P.m) : (x, y) ∉ (processX P 0 st x).adj := by
  unfold processX
  rw [if_neg (by omega)]
  exact foldl_processPair_d0_bk hns hbk _ _ _
    (mem_neighborList.mpr ⟨hym, hmem⟩) st

theorem foldl_processX_d0_bk {P : SDParams} (hns : P.stable = false) {x y : Nat}
    (hbk : bkBothForbidden P x y = true) (hym : y < P.m) (l : List Nat) (hx : x ∈ l) :
    ∀ st : SDState, (x, y) ∉ (l.foldl (processX P 0) st).adj := by
  induction l with
  | nil => cases hx
  | cons a l ih =>
    intro st
    rw [List.foldl_cons]
    by_cases hxl : x ∈ l
    · exact ih hxl _
    · have hax : x = a := (List.mem_cons.mp hx).resolve_right hxl
      subst hax
      by_cases hmem : (x, y) ∈ st.adj
      · intro hc
        exact processX_d0_bk hns hbk hmem hym (foldl_processX_adj_subset P 0 l _ hc)
      · intro hc
        exact hmem (processX_adj_subset P 0 st x (foldl_processX_adj_subset P 0 l _ hc))

theorem depthPass_d0_bk_nonstable {P : SDParams} (hns : P.stable = false) {x y : Nat}
    (hbk : bkBothForbidden P x y = true) (hx : x < P.m) (hym : y < P.m) (st : SDState) :
    (x, y) ∉ (depthPass P 0 st).adj := by
  intro hc
  have h1 : (x, y) ∈ (passCore P 0 st).adj := removeEdges_subset _ _ hc
  exact foldl_processX_d0_bk hns hbk hym (List.range P.m) (List.mem_range.mpr hx) _ h1

theorem depthPass_d0_bk_stable {P : SDParams} (hs : P.stable = true) {x y : Nat}
    (hbk : bkBothForbidden P x y = true) (hx : x < P.m) (hym : y < P.m) (st : SDState) :
    (x, y) ∉ (depthPass P 0 st).adj := by
  by_cases hmem : (x, y) ∈ st.adj
  · rw [depthPass_eq_ord hs, mem_adj_depthPassOrd hs]
    rintro ⟨_, hall⟩
    have hcp : (x, y) ∈ canonicalPairs P 0 st.adj :=
      mem_canonicalPairs.mpr ⟨hx, by omega, mem_neighborList.mpr ⟨hym, hmem⟩⟩
    exact (hall (x, y) hcp (by rw [decP_bk_d0 hbk] ; rfl)).1 rfl
  · exact fun hc => hmem (depthPass_adj_subset P 0 st hc)

theorem depthPass_d0_bk {P : SDParams} {x y : Nat} (hbk : bkBothForbidden P x y = true)
    (hx : x < P.m) (hym : y < P.m) (st : SDState) :
    (x, y) ∉ (depthPass P 0 st).adj := by
  rcases Bool.eq_false_or_eq_true P.stable with hst | hst
  · exact depthPass_d0_bk_stable hst hbk hx hym st
  · exact depthPass_d0_bk_nonstable hst hbk hx hym st

theorem maxDegree_complete_pos {P : SDParams} {x y : Nat} (hx : x < P.m) (hy : y < P.m)
    (hxy : x ≠ y) : 1 ≤ maxDegree P.m (completeAdj P.m) := by
  have hyn : y ∈ neighborList P.m (completeAdj P.m) x :=
    mem_neighborList.mpr ⟨hy, mem_completeAdj.mpr ⟨hx, hy, hxy⟩⟩
  have hlen : 1 ≤ (neighborList P.m (completeAdj P.m) x).length :=
    List.length_pos_of_mem hyn
  exact Nat.le_trans hlen (degree_le_maxDegree _ hx)

/-! ### Round-trip invariants between removals and the store (stable mode) -/

theorem depthPass_inv1 {P : SDParams} (hs : P.stable = true) (d : Nat) (st : SDState)
    (h1 : ∀ t ∈ st.sepset, (t.1, t.2.1) ∉ st.adj) :
    ∀ t ∈ (depthPass P d st).sepset, (t.1, t.2.1) ∉ (depthPass P d st).adj := by
  rw [depthPass_eq_ord hs]
  intro t ht
  rw [mem_sepset_depthPassOrd hs] at ht
  rw [mem_adj_depthPassOrd hs]
  rcases ht with ht | ⟨p, hp, S, hdec, h | h⟩
  · exact fun hc => h1 t ht hc.1
  · subst h
    rintro ⟨hmem, hall⟩
    exact (hall p hp (by rw [hdec] ; rfl)).1 rfl
  · subst h
    rintro ⟨hmem, hall⟩
    exact (hall p hp (by rw [hdec] ; rfl)).2 rfl

theorem depthPass_inv2 {P : SDParams} (hs : P.stable = true) (d : Nat) (st : SDState)
    (h2 : ∀ e ∈ completeAdj P.m, e ∉ st.adj →
      ∃ S, (e.1, e.2, S) ∈ st.sepset ∧ (e.2, e.1, S) ∈ st.sepset) :
    ∀ e ∈ completeAdj P.m, e ∉ (depthPass P d st).adj →
      ∃ S, (e.1, e.2, S) ∈ (depthPass P d st).sepset ∧
        (e.2, e.1, S) ∈ (depthPass P d st).sepset := by
  rw [depthPass_eq_ord hs]
  intro e hec hea
  by_cases hmem : e ∈ st.adj
  · rw [mem_adj_depthPassOrd hs] at hea
    push_neg at hea
    obtain ⟨p, hp, hsome, hne⟩ := hea hmem
    obtain ⟨S, hdec⟩ := Option.isSome_iff_exists.mp hsome
    have hin1 : (p.1, p.2, S) ∈ (depthPassOrd P d (canonicalPairs P d st.adj) st).sepset := by
      rw [mem_sepset_depthPassOrd hs]
      exact Or.inr ⟨p, hp, S, hdec, Or.inl rfl⟩
    have hin2 : (p.2, p.1, S) ∈ (depthPassOrd P d (canonicalPairs P d st.adj) st).sepset := by
      rw [mem_sepset_depthPassOrd hs]
      exact Or.inr ⟨p, hp, S, hdec, Or.inr rfl⟩
    by_cases he1 : e = (p.1, p.2)
    · subst he1
      exact ⟨S, hin1, hin2⟩
    · have he2 := hne he1
      subst he2
      exact ⟨S, hin2, hin1⟩
  · obtain ⟨S, hS1, hS2⟩ := h2 e hec hmem
    refine ⟨S, ?_, ?_⟩ <;> rw [mem_sepset_depthPassOrd hs]
    · exact Or.inl hS1
    · exact Or.inl hS2

theorem sdLoop_inv {P : SDParams} (hs : P.stable = true) (fuel : Nat) :
    ∀ (st : SDState) (nd : Nat),
      (∀ t ∈ st.sepset, (t.1, t.2.1) ∉ st.adj) →
      (∀ e ∈ completeAdj P.m, e ∉ st.adj →
        ∃ S, (e.1, e.2, S) ∈ st.sepset ∧ (e.2, e.1, S) ∈ st.sepset) →
      (∀ t ∈ (sdLoop P fuel st nd).1.sepset, (t.1, t.2.1) ∉ (sdLoop P fuel st nd).1.adj) ∧
      (∀ e ∈ completeAdj P.m, e ∉ (sdLoop P fuel st nd).1.adj →
        ∃ S, (e.1, e.2, S) ∈ (sdLoop P fuel st nd).1.sepset ∧
          (e.2, e.1, S) ∈ (sdLoop P fuel st nd).1.sepset) := by
  induction fuel with
  | zero => intro st nd h1 h2 ; exact ⟨h1, h2⟩
  | succ fuel ih =>
    intro st nd h1 h2
    by_cases hg : nd < maxDegree P.m st.adj
    · simp only [sdLoop, hg, if_true]
      exact ih (depthPass P nd st) (nd + 1) (depthPass_inv1 hs nd st h1) (depthPass_inv2 hs nd st h2)
    · simp only [sdLoop, hg, if_false]
      exact ⟨h1, h2⟩

theorem maxDegree_depthPass_le (P : SDParams) (d : Nat) (st : SDState) :
    maxDegree P.m (depthPass P d st).adj ≤ maxDegree P.m st.adj :=
  maxDegree_mono (depthPass_adj_subset P d st)

theorem sdLoop_exit (P : SDParams) (fuel : Nat) :
    ∀ (st : SDState) (nd : Nat), maxDegree P.m st.adj ≤ fuel + nd →
      maxDegree P.m (sdLoop P fuel st nd).1.adj ≤ (sdLoop P fuel st nd).2 := by
  induction fuel with
  | zero => intro st nd h ; simpa using h
  | succ fuel ih =>
    intro st nd h
    by_cases hg : nd < maxDegree P.m st.adj
    · simp only [sdLoop, hg, if_true]
      refine ih (depthPass P nd st) (nd + 1) ?_
      have h2 := maxDegree_depthPass_le P nd st
      omega
    · simp only [sdLoop, hg, if_false]
      exact Nat.le_of_not_lt hg

theorem sdLoop_exit_now (P : SDParams) (fuel : Nat) (st : SDState) (nd : Nat)
    (h : maxDegree P.m st.adj ≤ nd) : sdLoop P fuel st nd = (st, nd) := by
  cases fuel <;> simp [sdLoop, Nat.not_lt.mpr h]

theorem sdLoop_step (P : SDParams) (fuel : Nat) (st : SDState) (nd : Nat)
    (h : nd < maxDegree P.m st.adj) :
    sdLoop P (fuel + 1) st nd = sdLoop P fuel (depthPass P nd st) (nd + 1) := by
  simp [sdLoop, h]

theorem sdLoop_nd_le (P : SDParams) (fuel : Nat) :
    ∀ (st : SDState) (nd : Nat), nd ≤ (sdLoop P fuel st nd).2 := by
  induction fuel with
  | zero => intro st nd ; exact Nat.le_refl nd
  | succ fuel ih =>
    intro st nd
    by_cases hg : nd < maxDegree P.m st.adj
    · simp only [sdLoop, hg, if_true]
      exact Nat.le_trans (Nat.le_succ nd) (ih (depthPass P nd st) (nd + 1))
    · simp only [sdLoop, hg, if_false]
      exact Nat.le_refl nd

theorem sdLoop_nd_bound (P : SDParams) (fuel : Nat) :
    ∀ (st : SDState) (nd : Nat),
      (sdLoop P fuel st nd).2 ≤ max nd (maxDegree P.m st.adj) := by
  induction fuel with
  | zero => intro st nd ; exact Nat.le_max_left _ _
  | succ fuel ih =>
    intro st nd
    by_cases hg : nd < maxDegree P.m st.adj
    · simp only [sdLoop, hg, if_true]
      refine Nat.le_trans (ih (depthPass P nd st) (nd + 1)) ?_
      refine Nat.le_trans (Nat.max_le.mpr ⟨hg, maxDegree_depthPass_le P nd st⟩) ?_
      exact Nat.le_max_right _ _
    · simp only [sdLoop, hg, if_false]
      exact Nat.le_max_left _ _

theorem skeleton_step0 {P : SDParams} (hpos : 0 < maxDegree P.m (completeAdj P.m)) :
    (sdLoop P P.m (initState P) 0) =
      sdLoop P (P.m - 1) (depthPass P 0 (initState P)) 1 := by
  obtain ⟨f, hf⟩ : ∃ f, P.m = f + 1 := by
    have hm : 0 < P.m := by
      by_contra hm
      have : P.m = 0 := by omega
      rw [this] at hpos
      simp [maxDegree] at hpos
    exact ⟨P.m - 1, by omega⟩
  rw [hf, Nat.add_sub_cancel]
  exact sdLoop_step P f (initState P) 0 hpos

theorem skeleton_bk_removed {P : SDParams} {x y : Nat}
    (hbk : bkBothForbidden P x y = true) (hx : x < P.m) (hy : y < P.m) (hxy : x ≠ y) :
    (x, y) ∉ (skeleton_discovery P).adj := by
  intro hc
  have h0 := skeleton_step0 (maxDegree_complete_pos hx hy hxy)
  unfold skeleton_discovery at hc
  rw [h0] at hc
  exact depthPass_d0_bk hbk hx hy (initState P)
    (sdLoop_adj_subset P (P.m - 1) (depthPass P 0 (initState P)) 1 hc)

theorem skeleton_bk_recorded {P : SDParams} (hs : P.stable = true) {x y : Nat}
    (hbk : bkBothForbidden P x y = true) (hx : x < P.m) (hy : y < P.m) (hxy : x ≠ y) :
    (x, y, ([] : List Nat)) ∈ (skeleton_discovery P).sepset ∧
      (y, x, ([] : List Nat)) ∈ (skeleton_discovery P).sepset := by
  have h0 := skeleton_step0 (maxDegree_complete_pos hx hy hxy)
  unfold skeleton_discovery
  rw [h0]
  have hcp : (x, y) ∈ canonicalPairs P 0 (initState P).adj :=
    mem_canonicalPairs.mpr ⟨hx, by omega,
      mem_neighborList.mpr ⟨hy, mem_completeAdj.mpr ⟨hx, hy, hxy⟩⟩⟩
  have hin1 : (x, y, ([] : List Nat)) ∈ (depthPass P 0 (initState P)).sepset := by
    rw [depthPass_eq_ord hs, mem_sepset_depthPassOrd hs]
    exact Or.inr ⟨(x, y), hcp, [], decP_bk_d0 hbk _, Or.inl rfl⟩
  have hin2 : (y, x, ([] : List Nat)) ∈ (depthPass P 0 (initState P)).sepset := by
    rw [depthPass_eq_ord hs, mem_sepset_depthPassOrd hs]
    exact Or.inr ⟨(x, y), hcp, [], decP_bk_d0 hbk _, Or.inr rfl⟩
  exact ⟨sdLoop_sepset_superset P (P.m - 1) _ 1 hin1,
    sdLoop_sepset_superset P (P.m - 1) _ 1 hin2⟩

theorem sdLoopOrd_eq_sdLoop {P : SDParams} (hs : P.stable = true)
    (pi : Nat → Finset (Nat × Nat) → List (Nat × Nat))
    (hpi : ∀ d adj, (pi d adj).Perm (canonicalPairs P d adj)) (fuel : Nat) :
    ∀ (st st' : SDState) (nd : Nat), st'.adj = st.adj → st'.sepset = st.sepset →
      (sdLoopOrd P pi fuel st' nd).1.adj = (sdLoop P fuel st nd).1.adj ∧
      (sdLoopOrd P pi fuel st' nd).1.sepset = (sdLoop P fuel st nd).1.sepset := by
  induction fuel with
  | zero => exact fun st st' nd hadj hsep => ⟨hadj, hsep⟩
  | succ fuel ih =>
    intro st st' nd hadj hsep
    simp only [sdLoopOrd, sdLoop, hadj]
    split
    · have hpass := depthPassOrd_congr hs nd (canonicalPairs P nd st.adj)
        (pi nd st.adj) st st' hadj hsep (fun p => (hpi nd st.adj).mem_iff)
      rw [← depthPass_eq_ord hs] at hpass
      exact ih (depthPass P nd st) (depthPassOrd P nd (pi nd st.adj) st') (nd + 1)
        hpass.1 hpass.2
    · exact ⟨hadj, hsep⟩

/-! ## The claims -/

/-- C1, counterexample: in the non-stable run `PexC1` (two variables whose
oracle reports independence) the edge `(0,1)` of the initial complete graph
is removed, yet the Separation Set Store remains empty — so it is not the
case that in either mode every found separation is recorded and every
removed edge has a recorded separating set. -/
theorem nonstable_removed_edge_has_no_sepset :
    (0, 1) ∈ completeAdj 2 ∧ (0, 1) ∉ (skeleton_discovery PexC1).adj ∧
      (skeleton_discovery PexC1).sepset = ∅ :=
  ⟨by decide, by decide, by decide⟩

/-- C1 (amended): in stable mode, whenever a separation is found for a
visited pair the conditioning set is recorded under both orderings; every
edge removed from the complete graph has a recorded separating set under
both orderings and every remaining edge has none.  In non-stable mode the
code records nothing: the Separation Set Store stays empty. -/
theorem sepset_round_trip (P : SDParams) :
    (P.stable = true →
      (∀ (d : Nat) (st : SDState) (p : Nat × Nat) (S : List Nat),
          p ∈ canonicalPairs P d st.adj → decP P d st.adj p = some S →
          (p.1, p.2, S) ∈ (depthPass P d st).sepset ∧
            (p.2, p.1, S) ∈ (depthPass P d st).sepset) ∧
      (∀ e ∈ completeAdj P.m, e ∉ (skeleton_discovery P).adj →
          ∃ S, (e.1, e.2, S) ∈ (skeleton_discovery P).sepset ∧
            (e.2, e.1, S) ∈ (skeleton_discovery P).sepset) ∧
      (∀ e ∈ (skeleton_discovery P).adj, ∀ S,
          (e.1, e.2, S) ∉ (skeleton_discovery P).sepset)) ∧
    (P.stable = false → (skeleton_discovery P).sepset = ∅) := by
  constructor
  · intro hs
    have hinv := sdLoop_inv hs P.m (initState P) 0
      (fun t ht => absurd ht (Finset.not_mem_empty t))
      (fun e hec hea => absurd hec hea)
    refine ⟨?_, hinv.2, ?_⟩
    · intro d st p S hp hdec
      rw [depthPass_eq_ord hs]
      constructor <;> rw [mem_sepset_depthPassOrd hs]
      · exact Or.inr ⟨p, hp, S, hdec, Or.inl rfl⟩
      · exact Or.inr ⟨p, hp, S, hdec, Or.inr rfl⟩
    · intro e he S hS
      exact hinv.1 (e.1, e.2, S) hS he
  · intro hns
    exact sdLoop_sepset_nonstable hns P.m (initState P) 0

/-- C1, witness: in the stable run `PexC1s` the removed edge `(0,1)` has a
recorded separating set under both orderings, by the amended theorem. -/
theorem sepset_round_trip_witness :
    (0, 1) ∈ completeAdj 2 ∧ (0, 1) ∉ (skeleton_discovery PexC1s).adj ∧
      (∃ S, ((0 : Nat), (1 : Nat), S) ∈ (skeleton_discovery PexC1s).sepset ∧
        ((1 : Nat), (0 : Nat), S) ∈ (skeleton_discovery PexC1s).sepset) :=
  ⟨by decide, by decide,
    ((sepset_round_trip PexC1s).1 rfl).2.1 (0, 1) (by decide) (by decide)⟩

/-- C2, counterexample: in the non-stable run `PexC2`, after the edge
`(0,1)` is removed while processing `x = 0` at depth 1, the later test of
the pair `(0,2)` in the same `x`-iteration still draws its candidate pool
from the stale snapshot: its pool is `[1]` and its enumerated conditioning
set `[1]` contains the removed neighbor `1`, although `(0,1)` is already
absent from the live adjacency `adjP` at that moment. -/
theorem stale_candidate_pool_nonstable :
    (⟨1, 0, 2, completeAdj 3, eraseEdge (completeAdj 3) (0, 1), [1]⟩ : TraceEntry)
        ∈ (skeleton_discovery PexC2).trace ∧
      (1 : Nat) ∈ ([1] : List Nat) ∧
      ((0 : Nat), (1 : Nat)) ∉ eraseEdge (completeAdj 3) (0, 1) ∧
      [1] ∈ combinations [1] 1 :=
  ⟨by decide, by decide, by decide, by decide⟩

/-- C2 (amended): in non-stable mode a found separation removes the edge
immediately, so pairs whose first endpoint is visited later observe the
reduced neighborhood; but every pair `(x, y)` of one `x`-iteration draws
its candidate pool from the snapshot of `x`'s neighborhood taken when that
iteration began, which may still contain neighbors removed within the same
iteration. -/
theorem nonstable_removal_immediate (P : SDParams) (hns : P.stable = false) :
    (∀ (d : Nat) (st : SDState) (x : Nat), ∀ e ∈ (processX P d st x).trace,
        e ∈ st.trace ∨
          (e.d = d ∧ e.x = x ∧ e.adjX = st.adj ∧
            e.cands = (neighborList P.m st.adj x).filter (fun z => decide (z ≠ e.y)) ∧
            ∀ z ∈ e.cands, (x, z) ∈ st.adj)) ∧
    (∀ (d x y : Nat) (NeighX : List Nat) (adjX : Finset (Nat × Nat)) (st : SDState)
        (S : List Nat),
        sepDecision P d x y (NeighX.filter (fun z => decide (z ≠ y))) = some S →
        (processPair P d x NeighX adjX st y).adj = eraseEdge st.adj (x, y) ∧
          (x, y) ∉ (processPair P d x NeighX adjX st y).adj ∧
          (y, x) ∉ (processPair P d x NeighX adjX st y).adj) := by
  constructor
  · exact fun d st x => mem_trace_processX P d st x
  · intro d x y NeighX adjX st S hdec
    have h := processPair_removes hns NeighX adjX st S hdec
    refine ⟨h, ?_, ?_⟩ <;> rw [h] <;> intro hc
    · exact (mem_eraseEdge.mp hc).2.1 rfl
    · exact (mem_eraseEdge.mp hc).2.2 rfl

/-- C2, witness: the amended theorem applied to the concrete non-stable
run `PexC2` at the pair `(0,1)` with snapshot `[1,2]`: the decision
`some [2]` removes the edge immediately. -/
theorem nonstable_removal_immediate_witness :
    PexC2.stable = false ∧
      ((processPair PexC2 1 0 [1, 2] (completeAdj 3) (initState PexC2) 1).adj =
          eraseEdge (initState PexC2).adj (0, 1) ∧
        (0, 1) ∉ (processPair PexC2 1 0 [1, 2] (completeAdj 3) (initState PexC2) 1).adj ∧
        (1, 0) ∉ (processPair PexC2 1 0 [1, 2] (completeAdj 3) (initState PexC2) 1).adj) :=
  ⟨rfl, (nonstable_removal_immediate PexC2 rfl).2 1 0 1 [1, 2] (completeAdj 3)
    (initState PexC2) [2] (by decide)⟩

/-- C3: in stable mode the depth pass never touches the adjacency graph
(the fold over all vertices leaves it unchanged, and every trace entry
observes the start-of-depth adjacency both as its snapshot and as the live
graph); the pending removal list only collects symmetric pairs of found
separations; and only after the full pass is the list deduplicated (set
semantics) and its edges removed before the next depth. -/
theorem stable_pass_frame (P : SDParams) (hs : P.stable = true) (d : Nat) (st : SDState) :
    (passCore P d st).adj = st.adj ∧
    (∀ e ∈ (passCore P d st).trace, e ∈ st.trace ∨ (e.adjX = st.adj ∧ e.adjP = st.adj)) ∧
    (∀ q ∈ (passCore P d st).pending, ∃ p ∈ canonicalPairs P d st.adj,
        (decP P d st.adj p).isSome ∧ (q = p ∨ q = (p.2, p.1))) ∧
    depthPass P d st = finalizePass (passCore P d st) ∧
    (∀ q : Nat × Nat, q ∈ (passCore P d st).pending.dedup ↔ q ∈ (passCore P d st).pending) ∧
    (depthPass P d st).adj = removeEdges st.adj ((passCore P d st).pending.dedup) := by
  refine ⟨passCore_adj_stable hs d st, mem_trace_passCore hs d st, ?_, rfl,
    fun q => List.mem_dedup, ?_⟩
  · intro q hq
    rw [passCore_eq_runPairs hs, mem_pending_runPairs hs] at hq
    rcases hq with hq | h
    · cases hq
    · exact h
  · show removeEdges (passCore P d st).adj _ = _
    rw [passCore_adj_stable hs d st]

/-- C3, witness: the frame property applied to the stable run `PexC1s` at
depth 0 from the initial state. -/
theorem stable_pass_frame_witness :
    PexC1s.stable = true ∧
      (passCore PexC1s 0 (initState PexC1s)).adj = (initState PexC1s).adj :=
  ⟨rfl, (stable_pass_frame PexC1s rfl 0 (initState PexC1s)).1⟩

/-- C4: in stable mode the final adjacency graph and the final separation
set store are unchanged when every depth pass visits its (x, y) pairs in
any permuted order: a run with visitation orders `pi` (each a permutation
of the canonical order over the depth's frozen graph) produces the same
outputs as the source code's canonical run. -/
theorem stable_order_invariance (P : SDParams)
    (pi : Nat → Finset (Nat × Nat) → List (Nat × Nat)) (hs : P.stable = true)
    (hpi : ∀ (d : Nat) (adj : Finset (Nat × Nat)), (pi d adj).Perm (canonicalPairs P d adj)) :
    (skeleton_discovery_ord P pi).adj = (skeleton_discovery P).adj ∧
      (skeleton_discovery_ord P pi).sepset = (skeleton_discovery P).sepset :=
  sdLoopOrd_eq_sdLoop hs pi hpi P.m (initState P) (initState P) 0 rfl rfl

/-- C4, witness: the stable run `PexC4` visited in reversed pair order
yields the same adjacency graph and separation sets as the canonical
order. -/
theorem stable_order_invariance_witness :
    PexC4.stable = true ∧
      ((skeleton_discovery_ord PexC4 (piRev PexC4)).adj = (skeleton_discovery PexC4).adj ∧
        (skeleton_discovery_ord PexC4 (piRev PexC4)).sepset =
          (skeleton_discovery PexC4).sepset) :=
  ⟨rfl, stable_order_invariance PexC4 (piRev PexC4) rfl
    (fun d adj => List.reverse_perm (canonicalPairs PexC4 d adj))⟩

/-- C5: the driver loop starts at depth `-1` (encoded `nd = 0`),
advances by exactly one per iteration, exits exactly when
`max degree - 1 ≤ depth` (i.e. `maxDegree ≤ nd`): it exits immediately
when the bound already holds, otherwise steps once and recurses; the final
state satisfies the exit condition whenever the fuel covers
`maxDegree - nd`, the final `nd` is bounded by the initial max degree, and
`m` units of fuel suffice for the whole run on every input and oracle. -/
theorem driver_loop_terminates (P : SDParams) :
    (∀ (fuel : Nat) (st : SDState) (nd : Nat), maxDegree P.m st.adj ≤ fuel + nd →
        maxDegree P.m (sdLoop P fuel st nd).1.adj ≤ (sdLoop P fuel st nd).2) ∧
    (∀ (fuel : Nat) (st : SDState) (nd : Nat), maxDegree P.m st.adj ≤ nd →
        sdLoop P fuel st nd = (st, nd)) ∧
    (∀ (fuel : Nat) (st : SDState) (nd : Nat), nd < maxDegree P.m st.adj →
        sdLoop P (fuel + 1) st nd = sdLoop P fuel (depthPass P nd st) (nd + 1)) ∧
    (∀ (fuel : Nat) (st : SDState) (nd : Nat),
        nd ≤ (sdLoop P fuel st nd).2 ∧
          (sdLoop P fuel st nd).2 ≤ max nd (maxDegree P.m st.adj)) ∧
    skeleton_discovery P = (sdLoop P P.m (initState P) 0).1 ∧
    maxDegree P.m (skeleton_discovery P).adj ≤ (sdLoop P P.m (initState P) 0).2 := by
  refine ⟨fun fuel st nd h => sdLoop_exit P fuel st nd h,
    fun fuel st nd h => sdLoop_exit_now P fuel st nd h,
    fun fuel st nd h => sdLoop_step P fuel st nd h,
    fun fuel st nd => ⟨sdLoop_nd_le P fuel st nd, sdLoop_nd_bound P fuel st nd⟩, rfl, ?_⟩
  exact sdLoop_exit P P.m (initState P) 0
    (by simpa using maxDegree_le_m P.m (completeAdj P.m))

/-- C5, witness: on the concrete run `PexC1s` the loop's result satisfies
the exit condition, and from a state already satisfying it the loop
returns immediately. -/
theorem driver_loop_terminates_witness :
    maxDegree PexC1s.m (skeleton_discovery PexC1s).adj ≤
        (sdLoop PexC1s PexC1s.m (initState PexC1s) 0).2 ∧
      sdLoop PexC1s 5 (skeleton_discovery PexC1s) 7 = (skeleton_discovery PexC1s, 7) :=
  ⟨(driver_loop_terminates PexC1s).2.2.2.2.2,
    (driver_loop_terminates PexC1s).2.1 5 (skeleton_discovery PexC1s) 7 (by decide)⟩

/-- C6, counterexample: a 2-D ndarray of character labels — not a
numeric matrix — passes `assert type(data) == np.ndarray` and is
processed in full: with `alpha = 1/2` and the chi-squared test the result
is a successful run whose prepared data re-indexes the labels, not an
InvalidArgument failure; and a 1-D numeric ndarray also passes both
asserts, failing only afterwards at `data.shape[1]` with an IndexError. -/
theorem nonnumeric_ndarray_not_rejected :
    skeleton_discovery_checked (PyData.ndarray2 exStrCols) (mkRat 1 2) TestKind.chisq ciOne
        true none =
      Except.ok (skeleton_discovery ⟨exStrCols.length, mkRat 1 2, ciOne, none, true⟩,
        prepareData TestKind.chisq exStrCols) ∧
    prepareData TestKind.chisq exStrCols = Sum.inl ([[0, 1], [0, 0]], [2, 1]) ∧
    skeleton_discovery_checked (PyData.ndarray1 [(0 : ℚ)]) (mkRat 1 2) TestKind.fisherz ciOne
        true none = Except.error "IndexError" := by
  exact ⟨rfl, by decide, rfl⟩

/-- C6 (amended): with `alpha` outside `(0,1)`, or with a `data` argument
that is not an `np.ndarray` at all, `skeleton_discovery` fails with
InvalidArgument before any work: the result is the error (no graph in
it), identically for every oracle.  The assert inspects only the Python
type: an ndarray of any element type passes it — a 2-D ndarray (even of
non-numeric labels) is processed in full, and a 1-D ndarray fails only
after the argument checks, at `data.shape[1]`, with an IndexError rather
than InvalidArgument. -/
theorem invalid_argument_checks (α : Type) [LinearOrder α] :
    (∀ (alpha : ℚ) (data : PyData α) (tk : TestKind) (ci : Nat → Nat → List Nat → ℚ)
        (stable : Bool) (bk : Option (Nat → Nat → Bool)),
        ¬(0 < alpha ∧ alpha < 1) →
        skeleton_discovery_checked data alpha tk ci stable bk =
          Except.error "InvalidArgument") ∧
    (∀ (alpha : ℚ) (tk : TestKind) (ci : Nat → Nat → List Nat → ℚ) (stable : Bool)
        (bk : Option (Nat → Nat → Bool)),
        skeleton_discovery_checked (PyData.other : PyData α) alpha tk ci stable bk =
          Except.error "InvalidArgument") ∧
    (∀ (alpha : ℚ) (data : PyData α) (tk : TestKind) (ci ci2 : Nat → Nat → List Nat → ℚ)
        (stable : Bool) (bk : Option (Nat → Nat → Bool)), ¬(0 < alpha ∧ alpha < 1) →
        skeleton_discovery_checked data alpha tk ci stable bk =
          skeleton_discovery_checked data alpha tk ci2 stable bk) ∧
    (∀ (alpha : ℚ) (cols : List (List α)) (elems : List α) (tk : TestKind)
        (ci : Nat → Nat → List Nat → ℚ) (stable : Bool) (bk : Option (Nat → Nat → Bool)),
        0 < alpha → alpha < 1 →
        skeleton_discovery_checked (PyData.ndarray2 cols) alpha tk ci stable bk =
          Except.ok (skeleton_discovery ⟨cols.length, alpha, ci, bk, stable⟩,
            prepareData tk cols) ∧
        skeleton_discovery_checked (PyData.ndarray1 elems) alpha tk ci stable bk =
          Except.error "IndexError") := by
  refine ⟨?_, ?_, ?_, ?_⟩
  · intro alpha data tk ci stable bk h
    cases data with
    | other => rfl
    | ndarray1 elems => simp [skeleton_discovery_checked, h]
    | ndarray2 cols => simp [skeleton_discovery_checked, h]
  · intro alpha tk ci stable bk
    rfl
  · intro alpha data tk ci ci2 stable bk h
    cases data with
    | other => rfl
    | ndarray1 elems => simp [skeleton_discovery_checked, h]
    | ndarray2 cols => simp [skeleton_discovery_checked, h]
  · intro alpha cols elems tk ci stable bk h1 h2
    constructor <;> simp [skeleton_discovery_checked, h1, h2]

/-- C6, witness: `alpha = 0` and `alpha = 1` both fail with
InvalidArgument on a genuine two-column numeric matrix, a non-ndarray
argument fails with InvalidArgument, and the label matrix with a valid
`alpha` goes through the checks into a full run. -/
theorem invalid_argument_checks_witness :
    skeleton_discovery_checked (PyData.ndarray2 [[(0 : ℚ)], [0]]) 0 TestKind.fisherz ciOne
        true none = Except.error "InvalidArgument" ∧
      skeleton_discovery_checked (PyData.ndarray2 [[(0 : ℚ)], [0]]) 1 TestKind.fisherz ciOne
        true none = Except.error "InvalidArgument" ∧
      skeleton_discovery_checked (PyData.other : PyData ℚ) (mkRat 1 2) TestKind.fisherz ciOne
        true none = Except.error "InvalidArgument" ∧
      skeleton_discovery_checked (PyData.ndarray2 exStrCols) (mkRat 1 2) TestKind.chisq ciOne
        true none =
        Except.ok (skeleton_discovery ⟨exStrCols.length, mkRat 1 2, ciOne, none, true⟩,
          prepareData TestKind.chisq exStrCols) :=
  ⟨(invalid_argument_checks ℚ).1 0 (PyData.ndarray2 [[(0 : ℚ)], [0]]) TestKind.fisherz ciOne
      true none (by decide),
    (invalid_argument_checks ℚ).1 1 (PyData.ndarray2 [[(0 : ℚ)], [0]]) TestKind.fisherz ciOne
      true none (by decide),
    (invalid_argument_checks ℚ).2.1 (mkRat 1 2) TestKind.fisherz ciOne true none,
    ((invalid_argument_checks Char).2.2.2 (mkRat 1 2) exStrCols [] TestKind.chisq ciOne
      true none (by decide) (by decide)).1⟩

/-- C7: for a discrete test every column is independently re-indexed:
equal raw values receive equal codes, distinct raw values receive distinct
codes, every code is below the number of distinct values, every such index
is attained, and the computed cardinality (max code + 1) equals the number
of distinct values; the spec's example column encodes to `[0,0,1,2,1]`
with cardinality 3.  For any other test the data is passed through
unmodified. -/
theorem discrete_encoding_correct (α : Type) [LinearOrder α] :
    (∀ (col : List α) (i j : Nat) (hi : i < col.length) (hj : j < col.length)
        (hi2 : i < (unique_inverse col).length) (hj2 : j < (unique_inverse col).length),
        (col.get ⟨i, hi⟩ = col.get ⟨j, hj⟩ →
          (unique_inverse col).get ⟨i, hi2⟩ = (unique_inverse col).get ⟨j, hj2⟩) ∧
        (col.get ⟨i, hi⟩ ≠ col.get ⟨j, hj⟩ →
          (unique_inverse col).get ⟨i, hi2⟩ ≠ (unique_inverse col).get ⟨j, hj2⟩)) ∧
    (∀ (col : List α) (c : Nat), c ∈ unique_inverse col → c < col.dedup.length) ∧
    (∀ (col : List α) (j : Nat), j < col.dedup.length → j ∈ unique_inverse col) ∧
    (∀ col : List α, col ≠ [] → cardinality col = col.dedup.length) ∧
    (∀ (tk : TestKind) (cols : List (List ℚ)), requiresDiscrete tk = true →
        prepareData tk cols = Sum.inl (cols.map unique_inverse, cols.map cardinality)) ∧
    (∀ cols : List (List ℚ), prepareData TestKind.fisherz cols = Sum.inr cols) ∧
    unique_inverse exCol = [0, 0, 1, 2, 1] ∧ cardinality exCol = 3 := by
  refine ⟨?_, unique_inverse_lt, unique_inverse_surj, cardinality_eq, ?_, fun cols => rfl,
    by decide, by decide⟩
  · intro col i j hi hj hi2 hj2
    exact ⟨unique_inverse_eq_of_eq col i j hi hj hi2 hj2,
      unique_inverse_ne_of_ne col i j hi hj hi2 hj2⟩
  · intro tk cols h
    unfold prepareData
    rw [h]
    rfl

/-- C7, witness: the claim instantiated at the example column
`['a','a','b','c','b']`: equal raw values at positions 2 and 4 receive
equal codes, and the cardinality equals the number of distinct values. -/
theorem discrete_encoding_correct_witness :
    exCol ≠ [] ∧ cardinality exCol = exCol.dedup.length ∧
      (unique_inverse exCol).get ⟨2, by decide⟩ = (unique_inverse exCol).get ⟨4, by decide⟩ :=
  ⟨by decide, (discrete_encoding_correct Char).2.2.2.1 exCol (by decide),
    ((discrete_encoding_correct Char).1 exCol 2 4 (by decide) (by decide)
      (by decide) (by decide)).1 (by decide)⟩

/-- C8, counterexample: in the non-stable run `PexC8` the background
knowledge forbids `(0,1)` in both directions, the edge is removed at
depth 0 even though the statistical oracle reports dependence everywhere,
but no separating set is recorded: the store stays empty. -/
theorem bk_removal_without_record_nonstable :
    (0, 1) ∉ (skeleton_discovery PexC8).adj ∧ (skeleton_discovery PexC8).sepset = ∅ :=
  ⟨by decide, by decide⟩

/-- C8 (amended): when background knowledge forbids both directions of a
pair, the decision for that pair is the first enumerated conditioning set
(no further set is tried) irrespective of the statistical oracle; at depth
0 that set is the empty set and the edge is removed in either mode; in
stable mode the empty separating set is recorded under both orderings,
while in non-stable mode nothing is recorded. -/
theorem bk_forbidden_separates (P : SDParams) (x y : Nat)
    (hbk : bkBothForbidden P x y = true) :
    (∀ (d : Nat) (cands : List Nat),
        sepDecision P d x y cands = (combinations cands d).head?) ∧
    (∀ (ci1 ci2 : Nat → Nat → List Nat → ℚ) (d : Nat) (cands : List Nat),
        sepDecision { P with ci := ci1 } d x y cands =
          sepDecision { P with ci := ci2 } d x y cands) ∧
    (∀ cands : List Nat, sepDecision P 0 x y cands = some []) ∧
    (x < P.m → y < P.m → x ≠ y →
      (x, y) ∉ (skeleton_discovery P).adj ∧
      (P.stable = true →
        (x, y, ([] : List Nat)) ∈ (skeleton_discovery P).sepset ∧
          (y, x, ([] : List Nat)) ∈ (skeleton_discovery P).sepset) ∧
      (P.stable = false → (skeleton_discovery P).sepset = ∅)) := by
  refine ⟨sepDecision_bk P hbk, ?_, sepDecision_bk_d0 hbk, ?_⟩
  · intro ci1 ci2 d cands
    rw [sepDecision_bk { P with ci := ci1 } hbk, sepDecision_bk { P with ci := ci2 } hbk]
  · intro hx hy hxy
    refine ⟨skeleton_bk_removed hbk hx hy hxy,
      fun hs => skeleton_bk_recorded hs hbk hx hy hxy,
      fun hns => sdLoop_sepset_nonstable hns P.m (initState P) 0⟩

/-- C8, witness: the amended theorem applied to the stable run `PexC8s`:
the fully forbidden edge `(0,1)` is removed and the empty separating set
is recorded under both orderings. -/
theorem bk_forbidden_separates_witness :
    (0, 1) ∉ (skeleton_discovery PexC8s).adj ∧
      (((0 : Nat), (1 : Nat), ([] : List Nat)) ∈ (skeleton_discovery PexC8s).sepset ∧
        ((1 : Nat), (0 : Nat), ([] : List Nat)) ∈ (skeleton_discovery PexC8s).sepset) :=
  ⟨((bk_forbidden_separates PexC8s 0 1 rfl).2.2.2 (by decide) (by decide)
      (by decide)).1,
    ((bk_forbidden_separates PexC8s 0 1 rfl).2.2.2 (by decide) (by decide)
      (by decide)).2.1 rfl⟩

/-- C9: the adjacency graph starts as the complete graph and is only ever
shrunk: every depth pass and the whole loop map it to a subset of itself,
the final skeleton is a subgraph of the complete graph, and consequently
every vertex whose neighbor count is below any threshold stays below it
for the rest of the run. -/
theorem adjacency_only_shrinks (P : SDParams) :
    (initState P).adj = completeAdj P.m ∧
    (∀ (d : Nat) (st : SDState), (depthPass P d st).adj ⊆ st.adj) ∧
    (∀ (fuel : Nat) (st : SDState) (nd : Nat), (sdLoop P fuel st nd).1.adj ⊆ st.adj) ∧
    (skeleton_discovery P).adj ⊆ completeAdj P.m ∧
    (∀ (fuel : Nat) (st : SDState) (nd : Nat) (x k : Nat),
        (neighborList P.m st.adj x).length < k →
        (neighborList P.m (sdLoop P fuel st nd).1.adj x).length < k) := by
  refine ⟨rfl, depthPass_adj_subset P, sdLoop_adj_subset P,
    sdLoop_adj_subset P P.m (initState P) 0, ?_⟩
  intro fuel st nd x k h
  exact Nat.lt_of_le_of_lt
    ((neighborList_mono (sdLoop_adj_subset P fuel st nd) P.m x).length_le) h

/-- C9, witness: on the concrete run `PexC1` the final skeleton is inside
the complete graph and a vertex with fewer than 2 neighbors initially
still has fewer than 2 at the end. -/
theorem adjacency_only_shrinks_witness :
    (neighborList PexC1.m (initState PexC1).adj 0).length < 2 ∧
      (neighborList PexC1.m (sdLoop PexC1 3 (initState PexC1) 0).1.adj 0).length < 2 :=
  ⟨by decide, (adjacency_only_shrinks PexC1).2.2.2.2 3 (initState PexC1) 0 0 2 (by decide)⟩

end SkeletonDiscovery
